import Mathlib

/-!
Verification of the CS2-Market-Analyzer core logic.

Shallow embedding conventions:
* Python strings are `List Char`; `str.strip()` / `.lower()` are modelled on the
  ASCII whitespace set that the repository's data actually uses.
* Python floats are modelled as `ℚ` (all prices in the repository are decimal
  amounts; the arithmetic facts proved here are exact in `ℚ`).
* A Python value that may be `None` is an `Option`; code that raises
  (`dict[key]` on a missing key) returns `Except`.
-/

namespace CS2

/-! ### Python string helpers -/

/-- Whitespace characters recognised by `str.strip()` / regex `\s` (ASCII part). -/
def isWs (c : Char) : Bool :=
  c == ' ' || c == '\t' || c == '\n' || c == '\r' || c == '\x0b' || c == '\x0c'

/-- Left part of `str.strip()`. -/
def lstrip (l : List Char) : List Char := l.dropWhile isWs

/-- Right part of `str.strip()`. -/
def rstrip (l : List Char) : List Char := (l.reverse.dropWhile isWs).reverse

/-- Python `str.strip()`. -/
def pyStrip (l : List Char) : List Char := rstrip (lstrip l)

/-- Python `str.lower()` (ASCII; the repository's identifiers only use ASCII
letters plus glyphs that `lower` leaves unchanged). -/
def pyLower (l : List Char) : List Char := l.map Char.toLower

/-! ### app.py — identifier parser -/

/-- The string `"StatTrak™ "` (the special-edition-A marker from `app.py`). -/
def stMark : List Char := ['S', 't', 'a', 't', 'T', 'r', 'a', 'k', '™', ' ']

/-- The string `"Souvenir "` (the special-edition-B marker from `app.py`). -/
def souvMark : List Char := ['S', 'o', 'u', 'v', 'e', 'n', 'i', 'r', ' ']

/-- `"Factory New"` -/
def wearFN : List Char := "Factory New".toList
/-- `"Minimal Wear"` -/
def wearMW : List Char := "Minimal Wear".toList
/-- `"Field-Tested"` -/
def wearFT : List Char := "Field-Tested".toList
/-- `"Well-Worn"` -/
def wearWW : List Char := "Well-Worn".toList
/-- `"Battle-Scarred"` -/
def wearBS : List Char := "Battle-Scarred".toList

/-- The `WEARS` list from `app.py`. -/
def WEARS : List (List Char) := [wearFN, wearMW, wearFT, wearWW, wearBS]

/-- Result of `parse_market_hash_name`. -/
structure ParsedName where
  market_hash_name : List Char
  is_stattrak : Bool
  is_souvenir : Bool
  base_name : List Char
  wear : Option (List Char)
deriving DecidableEq

/-- One alternative of the wear regex
`\s\((Factory New|Minimal Wear|Field-Tested|Well-Worn|Battle-Scarred)\)\s*$`:
after stripping the all-whitespace tail `t := rstrip name`, a match of the
alternative `W` requires `"(" ++ W ++ ")"` to be a suffix of `t` preceded by one
whitespace character.  `m.start()` is the index of that whitespace character, so
the text before the match is `pre.dropLast`. -/
def tryWear (W t : List Char) : Option (List Char × List Char) :=
  let pat := '(' :: (W ++ [')'])
  let pre := t.take (t.length - pat.length)
  if pat.isSuffixOf t && decide (pat.length < t.length) && isWs (pre.getLastD 'x')
  then some (pre.dropLast, W)
  else none

/-- `re.search` of the wear pattern.  Because the pattern is anchored at the end
of the string, at most one alternative can match (the parenthesised group is
forced to be the suffix of `rstrip name`), so trying the alternatives in the
pattern's order is faithful to the leftmost-match semantics of `re.search`. -/
def wearSearch (name : List Char) : Option (List Char × List Char) :=
  let t := rstrip name
  match tryWear wearFN t with
  | some r => some r
  | none =>
  match tryWear wearMW t with
  | some r => some r
  | none =>
  match tryWear wearFT t with
  | some r => some r
  | none =>
  match tryWear wearWW t with
  | some r => some r
  | none =>
  match tryWear wearBS t with
  | some r => some r
  | none => none

/-- `parse_market_hash_name` from `app.py`: both special-edition flags are
computed from the stripped input `mh`; the two marker strings are then dropped
from the front (edition A first), and the tail is searched for a parenthesised
wear token anchored at the end. -/
def parse_market_hash_name (mh0 : List Char) : ParsedName :=
  let mh := pyStrip mh0
  let is_st := stMark.isPrefixOf mh
  let is_souv := souvMark.isPrefixOf mh
  let name1 := if is_st then mh.drop stMark.length else mh
  let name2 := if is_souv then name1.drop souvMark.length else name1
  match wearSearch name2 with
  | some (preBase, W) =>
      { market_hash_name := mh, is_stattrak := is_st, is_souvenir := is_souv,
        base_name := pyStrip preBase, wear := some W }
  | none =>
      { market_hash_name := mh, is_stattrak := is_st, is_souvenir := is_souv,
        base_name := pyStrip name2, wear := none }

/-- `build_market_hash_name` from `app.py`: `f"{base} ({wear})"`, prefixed with
the edition-A marker when `stattrak` is set. -/
def build_market_hash_name (base_name wear : List Char) (stattrak : Bool) : List Char :=
  let b := pyStrip base_name
  let w := pyStrip wear
  let mh := b ++ ' ' :: '(' :: (w ++ [')'])
  if stattrak then stMark ++ mh else mh

/-! ### src/market_clients.py — fuzzy catalog matcher -/

/-- `_norm` from `market_clients.py`: `(s or "").strip().lower()`. -/
def norm (s : List Char) : List Char := pyLower (pyStrip s)

/-- `_norm` applied to an optional field (`s or ""`). -/
def normOpt (s : Option (List Char)) : List Char := norm (s.getD [])

/-- Everything of `t` strictly before the last occurrence of `c`
(Python `t[:t.rfind(c)]`, assuming `c ∈ t`). -/
def beforeLast (c : Char) (t : List Char) : List Char :=
  ((t.reverse.dropWhile (fun d => !(d == c))).tail).reverse

/-- `_simplify` from `market_clients.py`: remove every `"★"`, strip, and if the
result contains both parentheses truncate at the last `"("` and strip again. -/
def simplify (s : List Char) : List Char :=
  let t := pyStrip (s.filter (fun c => !(c == '★')))
  if '(' ∈ t ∧ ')' ∈ t then pyStrip (beforeLast '(' t) else t

/-- `_match_score` from `market_clients.py`.  Scores are `Int` because the
length penalty can drive the total negative; `abs(..) // 2` on the two string
lengths is natural-number subtraction in both directions followed by `Nat`
division. -/
def match_score (target candidate : List Char) : Int :=
  if candidate = target then 100
  else
    (if target.isPrefixOf candidate then 50 else 0)
      + (if target <:+: candidate then 30 else 0)
      - Int.ofNat ((if target.length ≤ candidate.length
                    then candidate.length - target.length
                    else target.length - candidate.length) / 2)

/-- One record of the Skinport catalog snapshot: a possibly missing name and a
`min_price` that is `none` when absent or not coercible to a number (the code
collapses both cases by skipping the entry). -/
structure SPItem where
  market_hash_name : Option (List Char)
  min_price : Option ℚ
deriving DecidableEq

/-- A matcher candidate `(val, reason, score)` as built by
`skinport_find_min_price_usd`. -/
abbrev Cand : Type := ℚ × List Char × Int

/-- The candidate-collection loop of `skinport_find_min_price_usd`: skip
entries without a usable price, classify the rest as exact (score 100) or
partial (scored by `match_score`) matches. -/
def collectCandidates (items : List SPItem) (target target_simple : List Char) : List Cand :=
  items.filterMap fun it =>
    match it.min_price with
    | none => none
    | some val =>
      let mh := normOpt it.market_hash_name
      if mh = target then
        some (val, ("exact match: ".toList ++ mh, 100))
      else if !target_simple.isEmpty && decide (target_simple <:+: mh) then
        some (val, ("partial match: ".toList ++ mh, match_score target_simple mh))
      else none

/-- The sort key order of `candidates.sort(key=lambda x: (x[0], -x[2]))`:
ascending price first, then descending score. -/
def candLE (x y : Cand) : Prop := x.1 < y.1 ∨ (x.1 = y.1 ∧ y.2.2 ≤ x.2.2)

instance : DecidableRel candLE := fun x y => by unfold candLE; infer_instance

instance : IsTotal Cand candLE where
  total x y := by
    unfold candLE
    rcases lt_trichotomy x.1 y.1 with h | h | h
    · exact Or.inl (Or.inl h)
    · rcases le_total y.2.2 x.2.2 with hs | hs
      · exact Or.inl (Or.inr ⟨h, hs⟩)
      · exact Or.inr (Or.inr ⟨h.symm, hs⟩)
    · exact Or.inr (Or.inl h)

instance : IsTrans Cand candLE where
  trans x y z hxy hyz := by
    unfold candLE at *
    rcases hxy with h1 | ⟨h1, s1⟩
    · rcases hyz with h2 | ⟨h2, _⟩
      · exact Or.inl (h1.trans h2)
      · exact Or.inl (h2 ▸ h1)
    · rcases hyz with h2 | ⟨h2, s2⟩
      · exact Or.inl (h1 ▸ h2)
      · exact Or.inr ⟨h1.trans h2, s1.trans' s2⟩

/-- `skinport_find_min_price_usd` from `market_clients.py`.  The Python code
returns `(None, "no candidates")` before sorting when the candidate list is
empty; since the sorted list is empty exactly when the candidate list is, the
two checks are folded into one `match`.  `candidates.sort` is Python's stable
Timsort, modelled by the stable `List.insertionSort`. -/
def skinport_find_min_price_usd (items : List SPItem) (mh : List Char) (debug : Bool) :
    Option ℚ × Option (List Char) :=
  let target := norm mh
  let target_simple := norm (simplify mh)
  match List.insertionSort candLE (collectCandidates items target target_simple) with
  | [] => (none, some ("no candidates".toList))
  | best :: _ => (some best.1, if debug then some best.2.1 else none)

/-! ### src/fees.py — fee model -/

/-- One entry of the `market_fees` mapping; each rate is optional
(`mf.get(key, default)`). -/
structure MarketFees where
  buyer_extra_rate : Option ℚ
  seller_fee_rate : Option ℚ
deriving DecidableEq

/-- The fee-schedule document: a dict that may or may not contain the
`market_fees` key (`fees_cfg["market_fees"]` raises a `KeyError` when it does
not). -/
structure FeesCfg where
  market_fees : Option (List (String × MarketFees))
deriving DecidableEq

/-- `fees_cfg["market_fees"].get(market, {})`: look the marketplace up in the
mapping, defaulting to an entry with no configured rates. -/
def lookupMarket (fees : List (String × MarketFees)) (market : String) : MarketFees :=
  (((fees.find? fun p => p.1 == market).map Prod.snd).getD ⟨none, none⟩)

/-- `apply_buyer_total_usd` from `fees.py`.  The subscript on the schedule
happens before any marketplace test, so a document without the `market_fees`
key raises for every marketplace. -/
def apply_buyer_total_usd (market : String) (listing_price_usd : ℚ) (fees_cfg : FeesCfg) :
    Except String ℚ :=
  match fees_cfg.market_fees with
  | none => .error "KeyError: market_fees"
  | some fees =>
    let mf := lookupMarket fees market
    if market = "steam" then .ok listing_price_usd
    else if market = "skinport" ∨ market = "skinbaron" then
      .ok (listing_price_usd * (1 + mf.buyer_extra_rate.getD 0))
    else .ok listing_price_usd

/-- `apply_seller_net_usd` from `fees.py`. -/
def apply_seller_net_usd (market : String) (listing_price_usd : ℚ) (fees_cfg : FeesCfg) :
    Except String ℚ :=
  match fees_cfg.market_fees with
  | none => .error "KeyError: market_fees"
  | some fees =>
    let mf := lookupMarket fees market
    if market = "steam" then .ok (listing_price_usd * (1 - mf.seller_fee_rate.getD (15/100)))
    else if market = "skinport" then .ok (listing_price_usd * (1 - mf.seller_fee_rate.getD (12/100)))
    else if market = "skinbaron" then .ok (listing_price_usd * (1 - mf.seller_fee_rate.getD (10/100)))
    else .ok listing_price_usd

/-! ### src/normalizer.py — price display normalizer -/

/-- Result of `enforce_scm_cap_display`: `None`, the sentinel string
`"exceeds limit"`, or the numeric price. -/
inductive DisplayPrice where
  | missing : DisplayPrice
  | exceedsLimit : DisplayPrice
  | value : ℚ → DisplayPrice
deriving DecidableEq

/-- `enforce_scm_cap_display` from `normalizer.py` on a present-or-absent
numeric price (the `except` branch for non-coercible inputs is outside the
numeric domain modelled here). -/
def enforce_scm_cap_display (price_usd : Option ℚ) (usd_cap : ℚ) : DisplayPrice :=
  match price_usd with
  | none => .missing
  | some v => if v > usd_cap then .exceedsLimit else .value v

/-! ### app.py — comparison orchestrator (`Run check`) -/

/-- One output row of the price-check loop. -/
structure OutRow where
  base_name : List Char
  wear : Option (List Char)
  stattrak : Bool
  market_hash_name : List Char
  steam_usd : Option ℚ
  skinport_min_usd : Option ℚ
  spread_usd : Option ℚ
  match_debug : Option (Option (List Char))
deriving DecidableEq

/-- The body of the `Run check` loop in `app.py`: one row is appended per
watchlist entry; the Steam fetch is an external collaborator modelled as a
function `steamFetch`; `spread` is computed only when both prices are numeric;
the debug reason column is added only when `show_debug` is on. -/
def runCheckRows (spItems : List SPItem) (steamFetch : List Char → Option ℚ)
    (showDebug : Bool) (watch : List (List Char)) : List OutRow :=
  watch.map fun mh =>
    let sp := skinport_find_min_price_usd spItems mh true
    let steam_price := steamFetch mh
    let spread : Option ℚ :=
      match steam_price, sp.1 with
      | some a, some b => some (a - b)
      | _, _ => none
    let parsed := parse_market_hash_name mh
    { base_name := parsed.base_name, wear := parsed.wear,
      stattrak := parsed.is_stattrak, market_hash_name := mh,
      steam_usd := steam_price, skinport_min_usd := sp.1, spread_usd := spread,
      match_debug := if showDebug then some sp.2 else none }

/-- The sort key of `df["spread_sort"]`: the spread when it is numeric, else the
sentinel `-10**9`. -/
def spreadKey (r : OutRow) : ℚ :=
  match r.spread_usd with
  | some v => v
  | none => -1000000000

/-- Descending order on the sentinel key (`sort_values(.., ascending=False)`). -/
def rowGE (a b : OutRow) : Prop := spreadKey b ≤ spreadKey a

instance : DecidableRel rowGE := fun a b => by unfold rowGE; infer_instance

/-- The contract of the final presentation sort of the `Run check` tab,
`df.sort_values("spread_sort", ascending=False)`: the output is a permutation
of the input rows that is sorted in descending order of the sentinel key.
pandas' default sort kind (`quicksort`) promises nothing about the relative
order of rows with equal keys, so the tie order is deliberately left
unspecified: exactly the lists satisfying this predicate are admissible
outputs of the program's sort. -/
def IsSpreadSort (rows out : List OutRow) : Prop :=
  out.Perm rows ∧ List.Sorted rowGE out

instance (rows out : List OutRow) : Decidable (IsSpreadSort rows out) := by
  unfold IsSpreadSort; infer_instance

/-! ### app.py — watchlist helpers -/

/-- `add_to_watchlist` from `app.py`: append only a non-empty name that is not
already present. -/
def add_to_watchlist (wl : List (List Char)) (mh : List Char) : List (List Char) :=
  if mh ≠ [] ∧ mh ∉ wl then wl ++ [mh] else wl

/-- `remove_from_watchlist` from `app.py`: keep every element different from
`mh`. -/
def remove_from_watchlist (wl : List (List Char)) (mh : List Char) : List (List Char) :=
  wl.filter (fun x => !(x == mh))

/-! ### Helper lemmas: Python string model -/

lemma isPrefixOf_true_iff (l₁ l₂ : List Char) : l₁.isPrefixOf l₂ = true ↔ l₁ <+: l₂ := by
  simp

lemma isSuffixOf_true_iff (l₁ l₂ : List Char) : l₁.isSuffixOf l₂ = true ↔ l₁ <:+ l₂ := by
  simp

lemma isPrefixOf_append_self (l t : List Char) : l.isPrefixOf (l ++ t) = true := by
  rw [isPrefixOf_true_iff]
  exact ⟨t, rfl⟩

lemma lstrip_cons_of_not_ws {c : Char} (h : isWs c = false) (l : List Char) :
    lstrip (c :: l) = c :: l := by
  simp [lstrip, List.dropWhile_cons, h]

lemma rstrip_concat_of_not_ws {c : Char} (h : isWs c = false) (l : List Char) :
    rstrip (l ++ [c]) = l ++ [c] := by
  simp [rstrip, List.dropWhile_cons, h]

lemma head_not_ws {c : Char} {l : List Char} (h : lstrip (c :: l) = c :: l) :
    isWs c = false := by
  by_contra hb
  rw [Bool.not_eq_false] at hb
  rw [lstrip, List.dropWhile_cons, hb, if_pos rfl] at h
  have hlen := congrArg List.length h
  have hle : (List.dropWhile isWs l).length ≤ l.length :=
    List.Sublist.length_le (List.dropWhile_sublist isWs)
  simp only [List.length_cons] at hlen
  omega

lemma lstrip_length_le (l : List Char) : (lstrip l).length ≤ l.length :=
  List.Sublist.length_le (List.dropWhile_sublist isWs)

lemma rstrip_length_le (l : List Char) : (rstrip l).length ≤ l.length := by
  have h : (List.dropWhile isWs l.reverse).length ≤ l.reverse.length :=
    List.Sublist.length_le (List.dropWhile_sublist isWs)
  simpa [rstrip] using h

lemma of_pyStrip_eq_self {l : List Char} (h : pyStrip l = l) :
    lstrip l = l ∧ rstrip l = l := by
  have h1 : (lstrip l).length ≤ l.length := lstrip_length_le l
  have h2 : (pyStrip l).length ≤ (lstrip l).length := rstrip_length_le (lstrip l)
  rw [h] at h2
  have hl : lstrip l = l :=
    List.Sublist.eq_of_length (List.dropWhile_sublist isWs) (le_antisymm h1 h2)
  refine ⟨hl, ?_⟩
  rw [pyStrip, hl] at h
  exact h

/-! ### Helper lemmas: the wear regex -/

lemma append_sep_inj {α : Type} (a : α) (l₁ l₂ r₁ r₂ : List α)
    (h : l₁ ++ a :: r₁ = l₂ ++ a :: r₂) (hl : a ∉ l₂) (hr : a ∉ r₂) :
    l₁ = l₂ ∧ r₁ = r₂ := by
  induction l₂ generalizing l₁ with
  | nil =>
    cases l₁ with
    | nil => simpa using h
    | cons x l₁ =>
      simp only [List.nil_append, List.cons_append, List.cons.injEq] at h
      exact absurd (h.2 ▸ (by simp : a ∈ l₁ ++ a :: r₁)) hr
  | cons y l₂ ih =>
    simp only [List.mem_cons, not_or] at hl
    cases l₁ with
    | nil =>
      simp only [List.nil_append, List.cons_append, List.cons.injEq] at h
      exact absurd h.1 hl.1
    | cons x l₁ =>
      simp only [List.cons_append, List.cons.injEq] at h
      have := ih l₁ h.2 hl.2
      exact ⟨by rw [h.1, this.1], this.2⟩

lemma wear_suffix_unique {base W W' : List Char}
    (hb : '(' ∉ base) (hw : '(' ∉ W)
    (h : ('(' :: (W' ++ [')'])) <:+ (base ++ ' ' :: '(' :: (W ++ [')']))) : W' = W := by
  obtain ⟨s, hs⟩ := h
  have hrw : base ++ ' ' :: '(' :: (W ++ [')']) = (base ++ [' ']) ++ '(' :: (W ++ [')']) := by
    simp
  rw [hrw] at hs
  have h2 := append_sep_inj '(' s (base ++ [' ']) (W' ++ [')']) (W ++ [')']) hs
    (by simp [hb]) (by simp [hw])
  simpa using congrArg List.dropLast h2.2

lemma tryWear_app (W base : List Char) :
    tryWear W ((base ++ [' ']) ++ ('(' :: (W ++ [')']))) = some (base, W) := by
  have hlen : (('(' :: (W ++ [')'])).length < ((base ++ [' ']) ++ ('(' :: (W ++ [')']))).length) := by
    simp
    omega
  have hsuf : ('(' :: (W ++ [')'])).isSuffixOf ((base ++ [' ']) ++ ('(' :: (W ++ [')']))) = true := by
    rw [isSuffixOf_true_iff]
    exact ⟨base ++ [' '], rfl⟩
  have hsub : ((base ++ [' ']) ++ ('(' :: (W ++ [')']))).length - ('(' :: (W ++ [')'])).length
      = (base ++ [' ']).length := by
    simp
    omega
  simp only [tryWear]
  rw [hsub, List.take_left, hsuf, decide_eq_true hlen, List.getLastD_concat]
  simp [isWs, List.dropLast_concat]

lemma tryWear_ne {W W' base : List Char} (hne : W' ≠ W)
    (hb : '(' ∉ base) (hw : '(' ∉ W) :
    tryWear W' ((base ++ [' ']) ++ ('(' :: (W ++ [')']))) = none := by
  have hs : ('(' :: (W' ++ [')'])).isSuffixOf ((base ++ [' ']) ++ ('(' :: (W ++ [')']))) = false := by
    rw [Bool.eq_false_iff]
    intro hcontra
    rw [isSuffixOf_true_iff] at hcontra
    have h2 : ('(' :: (W' ++ [')'])) <:+ (base ++ ' ' :: '(' :: (W ++ [')'])) := by
      simpa using hcontra
    exact hne (wear_suffix_unique hb hw h2)
  simp only [tryWear]
  rw [hs]
  simp

lemma wearSearch_app {base W : List Char} (hW : W ∈ WEARS) (hb : '(' ∉ base) :
    wearSearch (base ++ ' ' :: '(' :: (W ++ [')'])) = some (base, W) := by
  have hu : base ++ ' ' :: '(' :: (W ++ [')']) = (base ++ [' ']) ++ ('(' :: (W ++ [')'])) := by
    simp
  have hrs : rstrip ((base ++ [' ']) ++ ('(' :: (W ++ [')'])))
      = (base ++ [' ']) ++ ('(' :: (W ++ [')'])) := by
    have h1 : (base ++ [' ']) ++ ('(' :: (W ++ [')'])) = ((base ++ [' ']) ++ ('(' :: W)) ++ [')'] := by
      simp
    rw [h1]
    exact rstrip_concat_of_not_ws (by decide) _
  rw [hu]
  simp only [wearSearch]
  rw [hrs]
  simp only [WEARS, List.mem_cons, List.not_mem_nil, or_false] at hW
  rcases hW with h | h | h | h | h <;> subst h
  · rw [tryWear_app]
  · rw [tryWear_ne (by decide) hb (by decide), tryWear_app]
  · rw [tryWear_ne (by decide) hb (by decide),
      tryWear_ne (by decide) hb (by decide), tryWear_app]
  · rw [tryWear_ne (by decide) hb (by decide),
      tryWear_ne (by decide) hb (by decide),
      tryWear_ne (by decide) hb (by decide), tryWear_app]
  · rw [tryWear_ne (by decide) hb (by decide),
      tryWear_ne (by decide) hb (by decide),
      tryWear_ne (by decide) hb (by decide),
      tryWear_ne (by decide) hb (by decide), tryWear_app]

lemma parse_flags_from_original (mh0 : List Char) :
    (parse_market_hash_name mh0).is_stattrak = stMark.isPrefixOf (pyStrip mh0) ∧
    (parse_market_hash_name mh0).is_souvenir = souvMark.isPrefixOf (pyStrip mh0) := by
  simp only [parse_market_hash_name]
  constructor <;> (split <;> rfl)

lemma marks_not_both (s : List Char) :
    (stMark.isPrefixOf s && souvMark.isPrefixOf s) = false := by
  cases hs : stMark.isPrefixOf s with
  | false => simp
  | true =>
    rw [isPrefixOf_true_iff] at hs
    obtain ⟨t, rfl⟩ := hs
    have h2 : souvMark.isPrefixOf (stMark ++ t) = false := rfl
    simp [h2]

/-! ### Claim C1 — parse/compose round-trip -/

/-- C1 counterexample: the base name `"Souvenir Foo"` contains no parentheses,
`"Factory New"` is one of the five wear tiers and the edition-A flag is false,
yet parsing the composed identifier yields base name `"Foo"` — the parser
strips the leading `"Souvenir "` of the base name — so the round-trip claimed
for every parenthesis-free base name fails. -/
theorem roundtrip_fails_on_souvenir_base :
    '(' ∉ "Souvenir Foo".toList ∧ ')' ∉ "Souvenir Foo".toList ∧ wearFN ∈ WEARS ∧
    (parse_market_hash_name
      (build_market_hash_name "Souvenir Foo".toList wearFN false)).base_name
      ≠ "Souvenir Foo".toList := by
  decide

/-- C1 amended: the parse/compose round-trip holds for every non-empty,
whitespace-trimmed base name that contains no parentheses and whose composed
form does not start with the `"StatTrak™ "` or `"Souvenir "` markers, for every
one of the five wear tiers and either edition-A flag value: base name, wear
tier and edition-A flag all survive the round trip. -/
theorem build_parse_roundtrip (base W : List Char) (flag : Bool)
    (hW : W ∈ WEARS) (hne : base ≠ []) (htrim : pyStrip base = base)
    (hbl : '(' ∉ base) (hbr : ')' ∉ base)
    (hst : stMark.isPrefixOf (base ++ ' ' :: '(' :: (W ++ [')'])) = false)
    (hsv : souvMark.isPrefixOf (base ++ ' ' :: '(' :: (W ++ [')'])) = false) :
    (parse_market_hash_name (build_market_hash_name base W flag)).base_name = base ∧
    (parse_market_hash_name (build_market_hash_name base W flag)).wear = some W ∧
    (parse_market_hash_name (build_market_hash_name base W flag)).is_stattrak = flag := by
  have hWtrim : pyStrip W = W := by
    simp only [WEARS, List.mem_cons, List.not_mem_nil, or_false] at hW
    rcases hW with h | h | h | h | h <;> subst h <;> decide
  have hbuild : build_market_hash_name base W flag
      = if flag then stMark ++ (base ++ ' ' :: '(' :: (W ++ [')']))
        else base ++ ' ' :: '(' :: (W ++ [')']) := by
    simp only [build_market_hash_name, htrim, hWtrim]
  obtain ⟨hls, hrs⟩ := of_pyStrip_eq_self htrim
  obtain ⟨b0, bt, rfl⟩ : ∃ b0 bt, base = b0 :: bt := by
    cases base with
    | nil => exact absurd rfl hne
    | cons b0 bt => exact ⟨b0, bt, rfl⟩
  have hb0 : isWs b0 = false := head_not_ws hls
  have hcons : (b0 :: bt) ++ ' ' :: '(' :: (W ++ [')'])
      = b0 :: (bt ++ ' ' :: '(' :: (W ++ [')'])) := by simp
  have hlsu : lstrip ((b0 :: bt) ++ ' ' :: '(' :: (W ++ [')']))
      = (b0 :: bt) ++ ' ' :: '(' :: (W ++ [')']) := by
    rw [hcons]; exact lstrip_cons_of_not_ws hb0 _
  have hrsu : rstrip ((b0 :: bt) ++ ' ' :: '(' :: (W ++ [')']))
      = (b0 :: bt) ++ ' ' :: '(' :: (W ++ [')']) := by
    have h1 : (b0 :: bt) ++ ' ' :: '(' :: (W ++ [')'])
        = ((b0 :: bt) ++ ' ' :: '(' :: W) ++ [')'] := by simp
    rw [h1]
    exact rstrip_concat_of_not_ws (by decide) _
  have hstripu : pyStrip ((b0 :: bt) ++ ' ' :: '(' :: (W ++ [')']))
      = (b0 :: bt) ++ ' ' :: '(' :: (W ++ [')']) := by
    rw [pyStrip, hlsu, hrsu]
  have hsearch := wearSearch_app hW hbl
  cases flag with
  | false =>
    rw [hbuild, if_neg (by simp)]
    simp only [parse_market_hash_name, hstripu, hst, hsv, if_neg, Bool.false_eq_true,
      ite_false, hsearch]
    exact ⟨htrim, trivial, trivial⟩
  | true =>
    rw [hbuild, if_pos rfl]
    have hmh : stMark ++ ((b0 :: bt) ++ ' ' :: '(' :: (W ++ [')']))
        = 'S' :: ('t' :: 'a' :: 't' :: 'T' :: 'r' :: 'a' :: 'k' :: '™' :: ' ' ::
          ((b0 :: bt) ++ ' ' :: '(' :: (W ++ [')']))) := by simp [stMark]
    have hlsm : lstrip (stMark ++ ((b0 :: bt) ++ ' ' :: '(' :: (W ++ [')'])))
        = stMark ++ ((b0 :: bt) ++ ' ' :: '(' :: (W ++ [')'])) := by
      rw [hmh]; exact lstrip_cons_of_not_ws (by decide) _
    have hrsm : rstrip (stMark ++ ((b0 :: bt) ++ ' ' :: '(' :: (W ++ [')'])))
        = stMark ++ ((b0 :: bt) ++ ' ' :: '(' :: (W ++ [')'])) := by
      have h1 : stMark ++ ((b0 :: bt) ++ ' ' :: '(' :: (W ++ [')']))
          = (stMark ++ ((b0 :: bt) ++ ' ' :: '(' :: W)) ++ [')'] := by simp
      rw [h1]
      exact rstrip_concat_of_not_ws (by decide) _
    have hstripm : pyStrip (stMark ++ ((b0 :: bt) ++ ' ' :: '(' :: (W ++ [')'])))
        = stMark ++ ((b0 :: bt) ++ ' ' :: '(' :: (W ++ [')'])) := by
      rw [pyStrip, hlsm, hrsm]
    have hstm : stMark.isPrefixOf (stMark ++ ((b0 :: bt) ++ ' ' :: '(' :: (W ++ [')'])))
        = true := isPrefixOf_append_self _ _
    have hsvm : souvMark.isPrefixOf (stMark ++ ((b0 :: bt) ++ ' ' :: '(' :: (W ++ [')'])))
        = false := rfl
    simp only [parse_market_hash_name, hstripm, hstm, hsvm, if_pos, Bool.false_eq_true,
      ite_true, ite_false, List.drop_left, hsearch]
    exact ⟨htrim, trivial, trivial⟩

/-- C1 witness: the amended round-trip applied to the concrete base name
`"AK-47 | Redline"` with wear `"Field-Tested"`, for both flag values. -/
theorem build_parse_roundtrip_witness :
    (parse_market_hash_name
      (build_market_hash_name "AK-47 | Redline".toList wearFT true)).base_name
      = "AK-47 | Redline".toList ∧
    (parse_market_hash_name
      (build_market_hash_name "AK-47 | Redline".toList wearFT false)).wear
      = some wearFT :=
  ⟨(build_parse_roundtrip "AK-47 | Redline".toList wearFT true (by decide) (by decide)
      (by decide) (by decide) (by decide) (by decide) (by decide)).1,
   (build_parse_roundtrip "AK-47 | Redline".toList wearFT false (by decide) (by decide)
      (by decide) (by decide) (by decide) (by decide) (by decide)).2.1⟩

/-! ### Claim C7 — special-edition prefix detection -/

/-- C7 counterexample: on a string that begins with the edition-A marker
followed by the edition-B marker, the parser sets only the edition-A flag —
the edition-B check runs against the original string, not the remainder after
stripping edition-A — contradicting the claim that both flags are set. -/
theorem both_markers_not_detected :
    (parse_market_hash_name
      "StatTrak™ Souvenir AWP | Dragon Lore (Factory New)".toList).is_stattrak = true ∧
    (parse_market_hash_name
      "StatTrak™ Souvenir AWP | Dragon Lore (Factory New)".toList).is_souvenir = false := by
  decide

/-- C7 amended: both special-edition flags are computed from the original
(trimmed) identifier, the edition-B check is not applied to the remainder after
stripping edition-A, and since the two marker strings differ the two flags can
never both be true. -/
theorem prefix_detection_on_original (mh0 : List Char) :
    (parse_market_hash_name mh0).is_stattrak = stMark.isPrefixOf (pyStrip mh0) ∧
    (parse_market_hash_name mh0).is_souvenir = souvMark.isPrefixOf (pyStrip mh0) ∧
    ((parse_market_hash_name mh0).is_stattrak
      && (parse_market_hash_name mh0).is_souvenir) = false := by
  obtain ⟨h1, h2⟩ := parse_flags_from_original mh0
  exact ⟨h1, h2, by rw [h1, h2]; exact marks_not_both _⟩

/-! ### Claim C2 — matcher price-over-exactness precedence -/

lemma candLE_price_le {x y : Cand} (h : candLE x y) : x.1 ≤ y.1 := by
  rcases h with h | ⟨h, _⟩
  · exact le_of_lt h
  · exact le_of_eq h

lemma head_price_min {cands : List Cand} {b : Cand} {rest : List Cand}
    (hs : List.insertionSort candLE cands = b :: rest) :
    ∀ c ∈ cands, b.1 ≤ c.1 := by
  intro c hc
  have hperm := List.perm_insertionSort candLE cands
  rw [hs] at hperm
  have hsort := List.sorted_insertionSort candLE cands
  rw [hs] at hsort
  have hmem : c ∈ b :: rest := hperm.mem_iff.mpr hc
  rcases List.mem_cons.mp hmem with h | h
  · exact le_of_eq (congrArg Prod.fst h.symm)
  · exact candLE_price_le ((List.sorted_cons.mp hsort).1 c h)

/-- C2: whenever the catalog contains an exact normalized-name match at price
`pe` and a strictly cheaper entry qualifying only as a partial match at price
`pp < pe`, the returned price is a minimum over all candidate prices, hence at
most `pp` and strictly below the exact match's `pe` — price ordering beats the
exact tier, and when the partial match is among the cheapest candidates its
price is returned exactly. -/
theorem find_best_price_orders_price_first
    (items : List SPItem) (mh : List Char) (debug : Bool)
    (e p : SPItem) (pe pp : ℚ)
    (he : e ∈ items) (hepr : e.min_price = some pe)
    (hex : normOpt e.market_hash_name = norm mh)
    (hp : p ∈ items) (hppr : p.min_price = some pp)
    (hpne : normOpt p.market_hash_name ≠ norm mh)
    (hsne : norm (simplify mh) ≠ [])
    (hinf : norm (simplify mh) <:+: normOpt p.market_hash_name)
    (hlt : pp < pe) :
    ∃ v, (skinport_find_min_price_usd items mh debug).1 = some v ∧
      v ≤ pp ∧ v < pe ∧
      (∀ c ∈ collectCandidates items (norm mh) (norm (simplify mh)), v ≤ c.1) ∧
      ((∀ c ∈ collectCandidates items (norm mh) (norm (simplify mh)), pp ≤ c.1) → v = pp) := by
  have hce : ((pe, ("exact match: ".toList ++ norm mh, (100:Int))) : Cand)
      ∈ collectCandidates items (norm mh) (norm (simplify mh)) := by
    rw [collectCandidates, List.mem_filterMap]
    refine ⟨e, he, ?_⟩
    simp only [hepr, hex, if_pos]
  have hcp : ((pp, ("partial match: ".toList ++ normOpt p.market_hash_name,
        match_score (norm (simplify mh)) (normOpt p.market_hash_name))) : Cand)
      ∈ collectCandidates items (norm mh) (norm (simplify mh)) := by
    rw [collectCandidates, List.mem_filterMap]
    refine ⟨p, hp, ?_⟩
    simp only [hppr, if_neg hpne]
    have hcond : (!(norm (simplify mh)).isEmpty
        && decide (norm (simplify mh) <:+: normOpt p.market_hash_name)) = true := by
      simp [hinf, List.isEmpty_iff, hsne]
    rw [if_pos hcond]
  rcases hs : List.insertionSort candLE
      (collectCandidates items (norm mh) (norm (simplify mh))) with _ | ⟨b, rest⟩
  · exfalso
    have hperm := List.perm_insertionSort candLE
      (collectCandidates items (norm mh) (norm (simplify mh)))
    rw [hs] at hperm
    rw [hperm.symm.eq_nil] at hce
    exact List.not_mem_nil _ hce
  · have hmin : ∀ c ∈ collectCandidates items (norm mh) (norm (simplify mh)), b.1 ≤ c.1 :=
      head_price_min hs
    have hbmem : b ∈ collectCandidates items (norm mh) (norm (simplify mh)) := by
      have hperm := List.perm_insertionSort candLE
        (collectCandidates items (norm mh) (norm (simplify mh)))
      rw [hs] at hperm
      exact hperm.mem_iff.mp (List.mem_cons_self b rest)
    have hfind : (skinport_find_min_price_usd items mh debug).1 = some b.1 := by
      simp only [skinport_find_min_price_usd, hs]
    have hvpp : b.1 ≤ pp := hmin _ hcp
    exact ⟨b.1, hfind, hvpp, lt_of_le_of_lt hvpp hlt, hmin,
      fun hall => le_antisymm hvpp (hall b hbmem)⟩

/-- C2 witness: the spec's own example — catalog with exact match at 10.00 and
partial match at 5.00 — returns 5, not 10. -/
theorem find_best_price_orders_price_first_witness :
    ∃ v, (skinport_find_min_price_usd
        [⟨some "Foo (Field-Tested)".toList, some 10⟩,
         ⟨some "Foo (Field-Tested) Special".toList, some 5⟩]
        "Foo (Field-Tested)".toList true).1 = some v ∧
      v ≤ 5 ∧ v < 10 ∧
      (∀ c ∈ collectCandidates
          [⟨some "Foo (Field-Tested)".toList, some 10⟩,
           ⟨some "Foo (Field-Tested) Special".toList, some 5⟩]
          (norm "Foo (Field-Tested)".toList)
          (norm (simplify "Foo (Field-Tested)".toList)), v ≤ c.1) ∧
      ((∀ c ∈ collectCandidates
          [⟨some "Foo (Field-Tested)".toList, some 10⟩,
           ⟨some "Foo (Field-Tested) Special".toList, some 5⟩]
          (norm "Foo (Field-Tested)".toList)
          (norm (simplify "Foo (Field-Tested)".toList)), 5 ≤ c.1) → v = 5) :=
  find_best_price_orders_price_first _ "Foo (Field-Tested)".toList true
    ⟨some "Foo (Field-Tested)".toList, some 10⟩
    ⟨some "Foo (Field-Tested) Special".toList, some 5⟩
    10 5 (by decide) (by decide) (by decide) (by decide) (by decide) (by decide)
    (by decide) (by decide) (by decide)

/-! ### Claim C3 — fee defaults -/

/-- C3 counterexample: on the truly empty schedule document the functions raise
(`fees_cfg["market_fees"]` is a `KeyError`) instead of returning the claimed
88.0 / 85.0 / 100.0. -/
theorem fee_defaults_fail_on_empty_document :
    apply_seller_net_usd "skinport" 100 ⟨none⟩ = .error "KeyError: market_fees" ∧
    apply_seller_net_usd "skinport" 100 ⟨none⟩ ≠ .ok 88 ∧
    apply_seller_net_usd "steam" 100 ⟨none⟩ ≠ .ok 85 ∧
    apply_buyer_total_usd "steam" 100 ⟨none⟩ ≠ .ok 100 := by
  refine ⟨rfl, ?_, ?_, ?_⟩ <;> (intro h; exact Except.noConfusion h)

/-- C3 amended: with a schedule document whose `market_fees` mapping is present
but empty the defaults apply — skinport seller net of 100 is 88, steam seller
net is 85, steam buyer total is 100 — while a document without the
`market_fees` key makes all three calls raise a `KeyError`. -/
theorem fee_defaults_with_empty_mapping :
    apply_seller_net_usd "skinport" 100 ⟨some []⟩ = .ok 88 ∧
    apply_seller_net_usd "steam" 100 ⟨some []⟩ = .ok 85 ∧
    apply_buyer_total_usd "steam" 100 ⟨some []⟩ = .ok 100 ∧
    apply_seller_net_usd "skinport" 100 ⟨none⟩ = .error "KeyError: market_fees" ∧
    apply_seller_net_usd "steam" 100 ⟨none⟩ = .error "KeyError: market_fees" ∧
    apply_buyer_total_usd "steam" 100 ⟨none⟩ = .error "KeyError: market_fees" := by
  refine ⟨?_, ?_, rfl, rfl, rfl, rfl⟩ <;>
    (simp [apply_seller_net_usd, lookupMarket]; norm_num)

/-! ### Claim C4 — cap normalizer boundary -/

/-- C4: the sentinel is returned exactly when the price strictly exceeds the
cap, a price at most the cap (including exactly the cap) is returned unchanged,
and an absent price stays absent. -/
theorem cap_display_boundary (p cap : ℚ) :
    (enforce_scm_cap_display (some p) cap = .exceedsLimit ↔ cap < p) ∧
    (p ≤ cap → enforce_scm_cap_display (some p) cap = .value p) ∧
    enforce_scm_cap_display none cap = .missing := by
  refine ⟨?_, ?_, rfl⟩
  · simp only [enforce_scm_cap_display, gt_iff_lt]
    split_ifs with h <;> simp [h]
  · intro hle
    simp only [enforce_scm_cap_display, gt_iff_lt, if_neg (not_lt.mpr hle)]

/-- C4 witness: the spec's boundary triple at cap 2000 — 2000 not flagged,
2000.01 flagged, absent stays absent. -/
theorem cap_display_boundary_witness :
    enforce_scm_cap_display (some 2000) 2000 = .value 2000 ∧
    enforce_scm_cap_display (some (200001/100)) 2000 = .exceedsLimit ∧
    enforce_scm_cap_display none 2000 = .missing :=
  ⟨(cap_display_boundary 2000 2000).2.1 (le_refl _),
   (cap_display_boundary (200001/100) 2000).1.mpr (by norm_num),
   (cap_display_boundary 0 2000).2.2⟩

/-! ### Claim C5 — partial-tier score formula -/

/-- The partial-tier score formula exactly as the spec words it (for comparison
with the source's `match_score`): +50 for a leading match, +30 for containment,
minus half the character-length difference with integer division. -/
def specPartialScore (target candidate : List Char) : Int :=
  (if target.isPrefixOf candidate then 50 else 0) + 30
    - Int.ofNat ((if target.length ≤ candidate.length
                  then candidate.length - target.length
                  else target.length - candidate.length) / 2)

/-- C5 counterexample: the catalog name `"foo"` differs from the full
normalized target `"foo (field-tested)"` yet equals the simplified target, so
it is a partial-tier candidate; `match_score` returns 100 through its equality
branch while the claimed formula gives 50 + 30 − 0 = 80. -/
theorem partial_score_equal_simplified_cex :
    ("foo".toList ≠ norm "Foo (Field-Tested)".toList) ∧
    norm (simplify "Foo (Field-Tested)".toList) = "foo".toList ∧
    (norm (simplify "Foo (Field-Tested)".toList) <:+: "foo".toList) ∧
    match_score (norm (simplify "Foo (Field-Tested)".toList)) "foo".toList = 100 ∧
    specPartialScore (norm (simplify "Foo (Field-Tested)".toList)) "foo".toList = 80 := by
  decide

/-- C5 amended: for a candidate containing the simplified target, the score is
the spec's 50/30/length-penalty formula whenever the candidate is not equal to
the simplified target itself, and 100 when it is. -/
theorem match_score_partial_formula (target candidate : List Char)
    (hinf : target <:+: candidate) :
    (candidate ≠ target → match_score target candidate = specPartialScore target candidate) ∧
    (candidate = target → match_score target candidate = 100) := by
  constructor
  · intro hne
    simp only [match_score, specPartialScore, if_neg hne, if_pos hinf]
  · intro heq
    simp only [match_score, if_pos heq]

/-- C5 witness: the formula case evaluated at target `"foo"`, candidate
`"foobar"`. -/
theorem match_score_partial_formula_witness :
    match_score "foo".toList "foobar".toList
      = specPartialScore "foo".toList "foobar".toList :=
  (match_score_partial_formula "foo".toList "foobar".toList (by decide)).1 (by decide)

/-! ### Claim C6 — debug gating of the reason -/

/-- C6 counterexample: with `want_debug` false and no candidates the reason is
the present string `"no candidates"`, not absent as the claim states for the
no-candidates case. -/
theorem no_candidates_reason_always_present :
    skinport_find_min_price_usd [] "Anything".toList false
      = (none, some "no candidates".toList) := by decide

/-- C6 amended: when no candidate qualifies the pair
`(absent, "no candidates")` is returned regardless of `want_debug`; when at
least one candidate qualifies and `want_debug` is false, a price is returned
with an absent reason. -/
theorem debug_gating (items : List SPItem) (mh : List Char) :
    (collectCandidates items (norm mh) (norm (simplify mh)) = [] →
      ∀ d : Bool, skinport_find_min_price_usd items mh d
        = (none, some "no candidates".toList)) ∧
    (collectCandidates items (norm mh) (norm (simplify mh)) ≠ [] →
      (skinport_find_min_price_usd items mh false).2 = none ∧
      ∃ v, (skinport_find_min_price_usd items mh false).1 = some v) := by
  constructor
  · intro h d
    simp only [skinport_find_min_price_usd, h, List.insertionSort]
  · intro h
    rcases hs : List.insertionSort candLE
        (collectCandidates items (norm mh) (norm (simplify mh))) with _ | ⟨b, rest⟩
    · exfalso
      have hperm := List.perm_insertionSort candLE
        (collectCandidates items (norm mh) (norm (simplify mh)))
      rw [hs] at hperm
      exact h hperm.symm.eq_nil
    · refine ⟨?_, ⟨b.1, ?_⟩⟩ <;> simp [skinport_find_min_price_usd, hs]

/-- C6 witness: a one-item catalog with a qualifying candidate yields an absent
reason without debug, and the empty catalog yields the no-candidates reason
even with debug on. -/
theorem debug_gating_witness :
    (skinport_find_min_price_usd [⟨some "foo".toList, some 5⟩] "foo".toList false).2 = none ∧
    skinport_find_min_price_usd [] "foo".toList true
      = (none, some "no candidates".toList) :=
  ⟨((debug_gating [⟨some "foo".toList, some 5⟩] "foo".toList).2 (by decide)).1,
   (debug_gating [] "foo".toList).1 (by decide) true⟩

/-! ### Claim C8 — presentation ordering -/

/-- A comparison row with only the spread field of interest populated. -/
def rowOf (mh : List Char) (spread : Option ℚ) : OutRow :=
  { base_name := mh, wear := none, stattrak := false, market_hash_name := mh,
    steam_usd := none, skinport_min_usd := none, spread_usd := spread,
    match_debug := none }

/-- One admissible output of the presentation sort on the counterexample
batch: the two keys differ, so sortedness forces the absent-spread row first. -/
lemma demo_sort_admissible :
    IsSpreadSort
      [rowOf "a".toList (some (-2000000000)), rowOf "b".toList none]
      [rowOf "b".toList none, rowOf "a".toList (some (-2000000000))] := by
  decide

/-- C8 amended: every output admitted by the presentation sort (a permutation
of the rows sorted descending by the sentinel key, spread when present and
−10⁹ when absent) lists present-spread rows in descending spread order, and a
present-spread row that comes after an absent-spread row necessarily has
spread at most −10⁹ — equivalently, absent-spread rows are placed after every
row whose spread exceeds −10⁹, but not after rows at or below the sentinel.
The relative order of rows with equal keys, including the claimed stability,
is not part of the sort's contract (pandas' default quicksort is unstable), so
no tie-order property is asserted. -/
theorem sort_spread_descending_sentinel (rows out : List OutRow)
    (h : IsSpreadSort rows out) :
    (∀ a b : OutRow, [a, b].Sublist out → ∀ va vb : ℚ,
      a.spread_usd = some va → b.spread_usd = some vb → vb ≤ va) ∧
    (∀ a b : OutRow, [a, b].Sublist out →
      a.spread_usd = none → ∀ v : ℚ, b.spread_usd = some v → v ≤ -1000000000) := by
  obtain ⟨-, hsort⟩ := h
  constructor
  · intro a b hsub va vb ha hb
    have hpair : List.Pairwise rowGE [a, b] := hsort.sublist hsub
    have hge : rowGE a b := (List.pairwise_cons.mp hpair).1 b (by simp)
    have hka : spreadKey a = va := by simp [spreadKey, ha]
    have hkb : spreadKey b = vb := by simp [spreadKey, hb]
    rw [rowGE, hka, hkb] at hge
    exact hge
  · intro a b hsub ha v hb
    have hpair : List.Pairwise rowGE [a, b] := hsort.sublist hsub
    have hge : rowGE a b := (List.pairwise_cons.mp hpair).1 b (by simp)
    have hka : spreadKey a = -1000000000 := by simp [spreadKey, ha]
    have hkb : spreadKey b = v := by simp [spreadKey, hb]
    rw [rowGE, hka, hkb] at hge
    exact hge

/-- C8 counterexample: for the batch [present spread −2·10⁹, absent spread],
the output with the absent row first satisfies the sort contract while the
claim's required order (absent row last) violates it — a present spread below
the −10⁹ sentinel sorts after absent rows, so it is false that every
absent-spread row is placed after every present-spread row. -/
theorem sort_spread_sentinel_cex :
    IsSpreadSort
      [rowOf "a".toList (some (-2000000000)), rowOf "b".toList none]
      [rowOf "b".toList none, rowOf "a".toList (some (-2000000000))] ∧
    ¬ IsSpreadSort
      [rowOf "a".toList (some (-2000000000)), rowOf "b".toList none]
      [rowOf "a".toList (some (-2000000000)), rowOf "b".toList none] ∧
    (rowOf "a".toList (some (-2000000000))).spread_usd.isSome = true ∧
    (rowOf "b".toList none).spread_usd = none := by
  decide

/-- C8 witness: the ordering conclusion applied to the admissible output of
the counterexample batch — the present row that follows the absent row indeed
has spread at most the sentinel. -/
theorem sort_spread_descending_sentinel_witness :
    (rowOf "b".toList none).spread_usd = none ∧
    (rowOf "a".toList (some (-2000000000))).spread_usd = some (-2000000000) ∧
    (-2000000000 : ℚ) ≤ -1000000000 := by
  refine ⟨rfl, rfl, ?_⟩
  have hsub : [rowOf "b".toList none, rowOf "a".toList (some (-2000000000))].Sublist
      [rowOf "b".toList none, rowOf "a".toList (some (-2000000000))] :=
    List.Sublist.refl _
  exact (sort_spread_descending_sentinel _ _ demo_sort_admissible).2 _ _ hsub rfl _ rfl

/-! ### Claim C9 — orchestrator row count invariant -/

/-- C9: for every catalog, Steam fetcher, debug setting and watchlist, the
check loop emits exactly one row per requested identifier, in input order, and
each row's spread is present exactly when both prices are present (then it is
their difference). -/
theorem run_check_row_invariant (spItems : List SPItem) (steamFetch : List Char → Option ℚ)
    (showDebug : Bool) (watch : List (List Char)) :
    (runCheckRows spItems steamFetch showDebug watch).length = watch.length ∧
    (runCheckRows spItems steamFetch showDebug watch).map OutRow.market_hash_name = watch ∧
    ∀ r ∈ runCheckRows spItems steamFetch showDebug watch,
      ((r.steam_usd = none ∨ r.skinport_min_usd = none) → r.spread_usd = none) ∧
      (∀ a b : ℚ, r.steam_usd = some a → r.skinport_min_usd = some b →
        r.spread_usd = some (a - b)) := by
  have hmap : ∀ w : List (List Char),
      (runCheckRows spItems steamFetch showDebug w).map OutRow.market_hash_name = w := by
    intro w
    induction w with
    | nil => rfl
    | cons a l ih =>
      simp only [runCheckRows, List.map_cons] at ih ⊢
      rw [ih]
  refine ⟨by simp [runCheckRows], hmap watch, ?_⟩
  intro r hr
  rw [runCheckRows, List.mem_map] at hr
  obtain ⟨mh, hmh, rfl⟩ := hr
  cases hst : steamFetch mh <;>
    cases hsp : (skinport_find_min_price_usd spItems mh true).1 <;>
      constructor <;> simp [hst, hsp]

/-- C9 witness: with an empty catalog and a failing Steam fetcher the single
requested identifier still yields exactly one row, with absent spread. -/
theorem run_check_row_invariant_witness :
    (runCheckRows [] (fun _ => none) false ["a".toList]).length = 1 ∧
    ∀ r ∈ runCheckRows [] (fun _ => none) false ["a".toList], r.spread_usd = none := by
  have h := run_check_row_invariant [] (fun _ => none) false ["a".toList]
  have heval : runCheckRows [] (fun _ => none) false ["a".toList]
      = [⟨"a".toList, none, false, "a".toList, none, none, none, none⟩] := by decide
  refine ⟨h.1, fun r hr => (h.2.2 r hr).1 (Or.inl ?_)⟩
  rw [heval] at hr
  simp only [List.mem_singleton] at hr
  rw [hr]

/-! ### Claim C10 — watchlist uniqueness invariant -/

/-- C10: adding preserves `Nodup`, is a no-op for present or empty names and
otherwise appends at the end (preserving the order of existing entries);
removal keeps a subsequence (preserving relative order), removes every
occurrence of the name and keeps everything else. -/
theorem watchlist_invariants (wl : List (List Char)) (mh : List Char) :
    (wl.Nodup → (add_to_watchlist wl mh).Nodup) ∧
    (mh ∈ wl → add_to_watchlist wl mh = wl) ∧
    add_to_watchlist wl [] = wl ∧
    (add_to_watchlist wl mh = wl ∨ add_to_watchlist wl mh = wl ++ [mh]) ∧
    (wl.Nodup → (remove_from_watchlist wl mh).Nodup) ∧
    (remove_from_watchlist wl mh).Sublist wl ∧
    mh ∉ remove_from_watchlist wl mh ∧
    (∀ x ∈ wl, x ≠ mh → x ∈ remove_from_watchlist wl mh) := by
  refine ⟨?_, ?_, ?_, ?_, ?_, ?_, ?_, ?_⟩
  · intro hnd
    unfold add_to_watchlist
    split_ifs with h
    · simp [List.nodup_append, hnd, h.2]
    · exact hnd
  · intro hmem
    unfold add_to_watchlist
    rw [if_neg (by simp [hmem])]
  · unfold add_to_watchlist
    rw [if_neg (by simp)]
  · unfold add_to_watchlist
    split_ifs <;> simp
  · intro hnd
    exact hnd.filter _
  · exact List.filter_sublist _
  · unfold remove_from_watchlist
    simp [List.mem_filter]
  · intro x hx hne
    unfold remove_from_watchlist
    simp [List.mem_filter, hx, hne]

/-- C10 witness: concrete instances — re-adding a present name is a no-op and
keeps the list duplicate-free; removal keeps the other entry. -/
theorem watchlist_invariants_witness :
    (add_to_watchlist ["a".toList] "a".toList).Nodup ∧
    add_to_watchlist ["a".toList] "a".toList = ["a".toList] ∧
    "a".toList ∈ remove_from_watchlist ["a".toList, "b".toList] "b".toList :=
  ⟨(watchlist_invariants ["a".toList] "a".toList).1 (by decide),
   (watchlist_invariants ["a".toList] "a".toList).2.1 (by decide),
   (watchlist_invariants ["a".toList, "b".toList] "b".toList).2.2.2.2.2.2.2 _ (by decide) (by decide)⟩

end CS2
